import Mathlib

/-!
Verification development for the AirspyHFDecimate repository
(src/src/main.cpp, src/tests/test_main.cpp).

The C++ pipeline is shallowly embedded: pure helper functions become Lean
functions, stateful classes become structures with explicit state passing,
machine integers become Nat with explicit reductions modulo two to the
relevant power, and float arithmetic is modelled over the reals.  Each
definition mirrors one function of the source; line references are given
in the doc comments.
-/

namespace AirspyHFDecimate

/-- Number of bytes of one interleaved IQ sample (main.cpp line 26:
two little-endian float32 values). -/
def kBytesPerIQ : ℕ := 8

/-! ## Low-pass designer (main.cpp lines 123-154) -/

/-- Coefficients of the windowed-sinc design before normalization
(main.cpp lines 124-143).  The requested tap count is clamped to a
minimum of 3 and forced odd; entry n is the Hamming window value at n
times the ideal sinc at m = n - (L-1)/2.  Float arithmetic is modelled
over the reals. -/
noncomputable def rawLowpass (taps : ℕ) (cutoff : ℝ) : List ℝ :=
  let t1 := if taps < 3 then 3 else taps
  let t2 := if t1 % 2 = 0 then t1 + 1 else t1
  let M : ℝ := ((t2 - 1 : ℕ) : ℝ)
  (List.range t2).map (fun (n : ℕ) =>
    let m : ℝ := (n : ℝ) - M / 2
    let window : ℝ := 0.54 - 0.46 * Real.cos (2 * Real.pi * (n : ℝ) / M)
    let sinc : ℝ := if |m| < 1e-6 then 2 * cutoff
      else Real.sin (2 * Real.pi * cutoff * m) / (Real.pi * m)
    window * sinc)

/-- Full designer (main.cpp lines 123-154): windowed-sinc coefficients,
then division by their sum unless that sum is exactly zero. -/
noncomputable def designLowpass (taps : ℕ) (cutoff : ℝ) : List ℝ :=
  let coeffs := rawLowpass taps cutoff
  let sum := coeffs.sum
  if sum ≠ 0 then coeffs.map (fun c => c / sum) else coeffs

/-! ## FIR decimator (main.cpp lines 156-190) -/

/-- State of one FirDecimator instance (main.cpp lines 184-189):
decimation factor (a C++ int), tap list, circular state buffer,
write index and phase counter. -/
structure FirDecimator where
  factor : ℤ
  taps : List ℝ
  state : List ℂ
  writeIndex : ℕ
  phase : ℤ

/-- Constructor (main.cpp lines 158-159): design the taps and start with
an all-zero state buffer of the same length, write index 0, phase 0. -/
noncomputable def mkFirDecimator (factor : ℤ) (taps : ℕ) (cutoff : ℝ) : FirDecimator :=
  let t := designLowpass taps cutoff
  { factor := factor
    taps := t
    state := List.replicate t.length 0
    writeIndex := 0
    phase := 0 }

/-- Inner accumulation loop of process (main.cpp lines 172-177): walk the
circular buffer backwards from the write index, multiplying by each tap
and accumulating. -/
noncomputable def firAcc (state : List ℂ) : List ℝ → ℕ → ℂ → ℂ
  | [], _, acc => acc
  | t :: rest, idx, acc =>
      let idx2 := if idx = 0 then state.length - 1 else idx - 1
      firAcc state rest idx2 (acc + state.getD idx2 0 * (t : ℂ))

/-- One iteration of the per-sample loop of process (main.cpp lines
167-179): store the sample, advance the write index modulo the buffer
length and the phase modulo the factor, and emit the inner product
exactly when the phase wraps to 0. -/
noncomputable def firStep (d : FirDecimator) (x : ℂ) : FirDecimator × Option ℂ :=
  let st := d.state.set d.writeIndex x
  let w := (d.writeIndex + 1) % st.length
  let ph := (d.phase + 1) % d.factor
  let d2 : FirDecimator :=
    { factor := d.factor, taps := d.taps, state := st, writeIndex := w, phase := ph }
  if ph = 0 then (d2, some (firAcc st d.taps w 0)) else (d2, none)

/-- Per-sample loop of process over a whole input buffer, collecting the
emitted samples in order (main.cpp lines 167-180). -/
noncomputable def processGo (d : FirDecimator) : List ℂ → FirDecimator × List ℂ
  | [] => (d, [])
  | x :: xs =>
      let p := firStep d x
      let rest := processGo p.1 xs
      (rest.1, match p.2 with
        | none => rest.2
        | some y => y :: rest.2)

/-- FirDecimator process (main.cpp lines 161-182): early return with an
empty output when the factor is nonpositive or the tap list is empty,
otherwise run the per-sample loop. -/
noncomputable def process (d : FirDecimator) (input : List ℂ) : FirDecimator × List ℂ :=
  if d.factor ≤ 0 ∨ d.taps = [] then (d, []) else processGo d input

/-! ## Frequency shifter (main.cpp lines 192-223) -/

/-- State of the FrequencyShifter (main.cpp lines 219-222): requested
shift, per-sample phase step and the running phase accumulator. -/
structure FrequencyShifter where
  shiftHz : ℝ
  step : ℝ
  phase : ℝ

/-- Constructor (main.cpp lines 194-200): a nonpositive sample rate is
replaced by 1; the step is 0 for a zero shift and 2 pi shift / rate
otherwise; the phase starts at 0. -/
noncomputable def mkFrequencyShifter (sampleRate shiftHz : ℝ) : FrequencyShifter :=
  let r := if sampleRate ≤ 0 then 1 else sampleRate
  { shiftHz := shiftHz
    step := if shiftHz = 0 then 0 else 2 * Real.pi * shiftHz / r
    phase := 0 }

/-- Phase folding after each update (main.cpp lines 211-215): bring the
accumulator back toward the interval from -pi to pi by one turn. -/
noncomputable def foldPhase (p : ℝ) : ℝ :=
  if p > Real.pi then p - 2 * Real.pi
  else if p < -Real.pi then p + 2 * Real.pi
  else p

/-- One iteration of the mix loop (main.cpp lines 206-216): multiply the
sample by cos phase + i sin phase, then advance and fold the phase. -/
noncomputable def mixStep (fs : FrequencyShifter) (x : ℂ) : FrequencyShifter × ℂ :=
  let c := Real.cos fs.phase
  let s := Real.sin fs.phase
  ({ shiftHz := fs.shiftHz, step := fs.step, phase := foldPhase (fs.phase + fs.step) },
    x * (⟨c, s⟩ : ℂ))

/-- Mix loop over a whole buffer (main.cpp lines 206-216). -/
noncomputable def mixGo (fs : FrequencyShifter) : List ℂ → FrequencyShifter × List ℂ
  | [] => (fs, [])
  | x :: xs =>
      let p := mixStep fs x
      let rest := mixGo p.1 xs
      (rest.1, p.2 :: rest.2)

/-- FrequencyShifter mix (main.cpp lines 202-217): zero shift or an empty
buffer returns immediately with the samples and state untouched. -/
noncomputable def mix (fs : FrequencyShifter) (xs : List ℂ) : FrequencyShifter × List ℂ :=
  if fs.shiftHz = 0 ∨ xs = [] then (fs, xs) else mixGo fs xs

/-- Iterated calls to mix with the state threaded through, modelling the
per-chunk calls of the top-level loop (main.cpp line 437). -/
noncomputable def mixCalls (fs : FrequencyShifter) : List (List ℂ) → FrequencyShifter × List (List ℂ)
  | [] => (fs, [])
  | c :: cs =>
      let p := mix fs c
      let rest := mixCalls p.1 cs
      (rest.1, p.2 :: rest.2)

/-! ## Timestamp encoder (main.cpp lines 225-286), integer-rate path -/

/-- State of the TimestampEncoder on its integer path (main.cpp lines
280-285) after anchoring: the exact integer output rate stored by the
constructor (main.cpp lines 227-234, taken when the configured rate is
within 1e-6 of a positive integer) and the wall-clock anchor captured on
first use (main.cpp lines 271-278).  The anchor fields are uint32
values; the nondeterministic clock read is modelled by leaving them as
parameters of the structure. -/
structure TimestampEncoder where
  sampleRateHz : ℕ
  baseSec : ℕ
  baseNsec : ℕ

/-- Integer path of headerForSample (main.cpp lines 245-251).  The C++
unsigned types are modelled by Nat with explicit reductions: the product
is an unsigned 128-bit value, the quotient is cast to uint64, the sum of
anchor nanoseconds and offset is uint64 arithmetic, and both returned
fields are uint32 casts.  The pair is returned as the two 32-bit values;
the bitwise reinterpretation into two float32 lanes (main.cpp lines
263-267) preserves exactly these two values. -/
def headerForSample (e : TimestampEncoder) (n : ℕ) : ℕ × ℕ :=
  let nsNumerator := (n * 1000000000) % 2 ^ 128
  let nsOffset := (nsNumerator / e.sampleRateHz) % 2 ^ 64
  let nsecTotal := (e.baseNsec + nsOffset) % 2 ^ 64
  let seconds := (e.baseSec + (nsecTotal / 1000000000) % 2 ^ 32) % 2 ^ 32
  let nanoseconds := (nsecTotal % 1000000000) % 2 ^ 32
  (seconds, nanoseconds)

/-! ## Framing loop (main.cpp lines 448-457) -/

/-- Framing while-loop of main (main.cpp lines 448-457): while the
emission buffer holds at least payload samples, emit one frame made of
the header for the running sample counter followed by the first payload
samples of the buffer, drop those samples and advance the counter by
payload.  Returns the emitted frames, the remaining buffer and the final
counter.  The header producer is abstract; main passes the timestamp
header for the counter value.  The C++ loop condition is only the length
test; the positivity conjunct is the termination measure of the model
and is implied by the frame option being at least 2 (main.cpp line 114). -/
def drainFrames (payload : ℕ) (hdr : ℕ → α) (buffer : List α) (sent : ℕ) :
    List (List α) × List α × ℕ :=
  if h : 0 < payload ∧ payload ≤ buffer.length then
    let rest := drainFrames payload hdr (buffer.drop payload) (sent + payload)
    ((hdr sent :: buffer.take payload) :: rest.1, rest.2.1, rest.2.2)
  else ([], buffer, sent)
termination_by buffer.length
decreasing_by simp only [List.length_drop]; omega

/-! ## Input carry split (main.cpp lines 421-428) -/

/-- Alignment split of the top-level loop (main.cpp lines 421-428):
concatenate the carry from the previous iteration with the bytes just
read, cut at the largest multiple of kBytesPerIQ, convert the aligned
prefix and keep the remainder as the new carry.  Bytes are modelled as
naturals; only lengths matter to the claims. -/
def splitAligned (carry chunk : List ℕ) : List ℕ × List ℕ :=
  let all := carry ++ chunk
  let usableBytes := (all.length / kBytesPerIQ) * kBytesPerIQ
  (all.take usableBytes, all.drop usableBytes)

/-- Carry threading across the whole stdin loop (main.cpp lines 411-431):
fold the alignment split over successive chunks starting from the empty
carry of line 394. -/
def carryAfter (chunks : List (List ℕ)) : List ℕ :=
  chunks.foldl (fun c ch => (splitAligned c ch).2) []

/-! ## Helper lemmas -/

theorem splitAligned_snd_length (carry chunk : List ℕ) :
    ((splitAligned carry chunk).2).length = (carry ++ chunk).length % kBytesPerIQ := by
  simp only [splitAligned, List.length_drop, kBytesPerIQ]
  omega

theorem carry_fold_short (chunks : List (List ℕ)) (c : List ℕ)
    (hc : c.length < kBytesPerIQ) :
    (chunks.foldl (fun c ch => (splitAligned c ch).2) c).length < kBytesPerIQ := by
  induction chunks generalizing c with
  | nil => exact hc
  | cons ch rest ih =>
      apply ih
      rw [splitAligned_snd_length]
      simp [kBytesPerIQ]
      omega

/-! ## Claim C9: input carry alignment invariant -/

/-- Claim C9.  At every iteration boundary of the top-level loop the carry
is strictly shorter than kBytesPerIQ, and the bytes handed to the decoder
are the largest prefix of carry-plus-chunk whose length is a multiple of
kBytesPerIQ, the remainder becoming the new carry.  Stated as: for every
carry and chunk, the new carry of splitAligned is shorter than
kBytesPerIQ, the aligned part has length a multiple of kBytesPerIQ, the
two parts reassemble carry-plus-chunk, the aligned part is the prefix of
the largest aligned length, and any aligned length is at most it; and the
fold of the split over any chunk sequence, from the empty initial carry,
leaves a carry shorter than kBytesPerIQ. -/
theorem carry_invariant :
    (∀ carry chunk : List ℕ,
      ((splitAligned carry chunk).2).length < kBytesPerIQ ∧
      ((splitAligned carry chunk).1).length % kBytesPerIQ = 0 ∧
      (splitAligned carry chunk).1 ++ (splitAligned carry chunk).2 = carry ++ chunk ∧
      (splitAligned carry chunk).1
        = (carry ++ chunk).take (((carry ++ chunk).length / kBytesPerIQ) * kBytesPerIQ) ∧
      (∀ m : ℕ, m ≤ (carry ++ chunk).length → m % kBytesPerIQ = 0 →
        m ≤ ((splitAligned carry chunk).1).length)) ∧
    (∀ chunks : List (List ℕ), (carryAfter chunks).length < kBytesPerIQ) := by
  constructor
  · intro carry chunk
    refine ⟨?_, ?_, ?_, ?_, ?_⟩
    · rw [splitAligned_snd_length]
      simp [kBytesPerIQ]
      omega
    · simp only [splitAligned, List.length_take, kBytesPerIQ]
      omega
    · exact List.take_append_drop _ _
    · rfl
    · intro m hm hmod
      simp only [splitAligned, List.length_take, kBytesPerIQ] at *
      omega
  · intro chunks
    exact carry_fold_short chunks [] (by simp [kBytesPerIQ])

/-- Claim C9 witness: the general theorem applied to a concrete carry of
three bytes and a chunk of ten bytes, including one instance of the
maximality clause at the aligned length 8. -/
theorem carry_invariant_witness :
    ((splitAligned [1, 2, 3] [4, 5, 6, 7, 8, 9, 10, 11, 12, 13]).2).length < kBytesPerIQ ∧
    8 ≤ ((splitAligned [1, 2, 3] [4, 5, 6, 7, 8, 9, 10, 11, 12, 13]).1).length ∧
    (carryAfter [[1, 2, 3], [4, 5, 6, 7, 8, 9]]).length < kBytesPerIQ :=
  ⟨(carry_invariant.1 [1, 2, 3] [4, 5, 6, 7, 8, 9, 10, 11, 12, 13]).1,
    (carry_invariant.1 [1, 2, 3] [4, 5, 6, 7, 8, 9, 10, 11, 12, 13]).2.2.2.2 8
      (by decide) (by decide),
    carry_invariant.2 [[1, 2, 3], [4, 5, 6, 7, 8, 9]]⟩

/-! ## Claim C4: timestamp encoder, integer-rate path -/

/-- Claim C4 counterexample.  The claim asserts the exact relation
sec by 10 to the 9 plus nsec equals base plus floor of n times 10 to the
9 over R for EVERY sample index n.  The code stores seconds in a uint32,
so the relation wraps: with rate 1 Hz, anchor (0, 0) and sample index
2 to the 32, headerForSample returns (0, 0) while the claimed absolute
offset is 2 to the 32 times 10 to the 9 nanoseconds. -/
theorem headerForSample_wraps :
    (headerForSample ⟨1, 0, 0⟩ (2 ^ 32)).1 * 10 ^ 9 + (headerForSample ⟨1, 0, 0⟩ (2 ^ 32)).2
      ≠ 0 * 10 ^ 9 + 0 + (2 ^ 32 * 10 ^ 9) / 1 := by
  decide

/-- Claim C4 as amended: for an encoder on the exact-integer-rate path
with rate R positive, uint32 anchor fields, a uint64 sample index n, and
an absolute timestamp that still fits in 32-bit seconds, headerForSample
returns (sec, nsec) with sec times 10 to the 9 plus nsec equal to
baseSec times 10 to the 9 plus baseNsec plus floor of n times 10 to the
9 over R; the computation goes through a 128-bit product, so no
intermediate precision is lost; and nsec always lies below 10 to the 9. -/
theorem headerForSample_exact (e : TimestampEncoder) (n : ℕ)
    (hR : 0 < e.sampleRateHz)
    (hsec : e.baseSec < 2 ^ 32) (hnsec : e.baseNsec < 2 ^ 32)
    (hn : n < 2 ^ 64)
    (hfit : e.baseSec * 10 ^ 9 + e.baseNsec + (n * 10 ^ 9) / e.sampleRateHz
      < 2 ^ 32 * 10 ^ 9) :
    (headerForSample e n).1 * 10 ^ 9 + (headerForSample e n).2
        = e.baseSec * 10 ^ 9 + e.baseNsec + (n * 10 ^ 9) / e.sampleRateHz ∧
      ∀ (e2 : TimestampEncoder) (n2 : ℕ), (headerForSample e2 n2).2 < 10 ^ 9 := by
  constructor
  · have hnum : (n * 1000000000) % 2 ^ 128 = n * 1000000000 := by
      apply Nat.mod_eq_of_lt
      omega
    simp only [headerForSample, hnum]
    generalize hq : n * 1000000000 / e.sampleRateHz = t
    have ht : t < 2 ^ 32 * 10 ^ 9 := by
      rw [← hq]
      have : n * 1000000000 / e.sampleRateHz = (n * 10 ^ 9) / e.sampleRateHz := by norm_num
      rw [this]
      omega
    rw [show n * 10 ^ 9 / e.sampleRateHz = t from by rw [← hq]; norm_num] at hfit
    omega
  · intro e2 n2
    simp only [headerForSample]
    generalize n2 * 1000000000 % 2 ^ 128 / e2.sampleRateHz = t
    omega

/-- Claim C4 witness for the amended theorem: rate 3840 Hz, anchor
(1700000000, 999999999), sample index 12345; every hypothesis is closed
by decide. -/
theorem headerForSample_exact_witness :
    0 < (3840 : ℕ) ∧
    (headerForSample ⟨3840, 1700000000, 999999999⟩ 12345).1 * 10 ^ 9
        + (headerForSample ⟨3840, 1700000000, 999999999⟩ 12345).2
      = 1700000000 * 10 ^ 9 + 999999999 + (12345 * 10 ^ 9) / 3840 :=
  ⟨by decide,
    (headerForSample_exact ⟨3840, 1700000000, 999999999⟩ 12345 (by decide) (by decide)
      (by decide) (by decide) (by decide)).1⟩

/-! ## Claim C5: framing loop -/

theorem drainFrames_spec {α : Type} (payload : ℕ) (hdr : ℕ → α)
    (hpos : 0 < payload) (buffer : List α) (sent : ℕ) :
    (∀ f ∈ (drainFrames payload hdr buffer sent).1, f.length = payload + 1) ∧
    (∀ k < ((drainFrames payload hdr buffer sent).1).length,
      ((drainFrames payload hdr buffer sent).1).getD k []
        = hdr (sent + k * payload) :: (buffer.drop (k * payload)).take payload) ∧
    (drainFrames payload hdr buffer sent).2.2
      = sent + ((drainFrames payload hdr buffer sent).1).length * payload ∧
    (drainFrames payload hdr buffer sent).2.1
      = buffer.drop (((drainFrames payload hdr buffer sent).1).length * payload) ∧
    ((drainFrames payload hdr buffer sent).2.1).length < payload := by
  induction buffer, sent using drainFrames.induct payload hdr with
  | case1 buffer sent h ih =>
      rw [drainFrames]
      simp only [dif_pos h]
      obtain ⟨ih1, ih2, ih3, ih4, ih5⟩ := ih
      refine ⟨?_, ?_, ?_, ?_, ih5⟩
      · intro f hf
        rw [List.mem_cons] at hf
        rcases hf with rfl | hf
        · simp only [List.length_cons, List.length_take]
          omega
        · exact ih1 f hf
      · intro k hk
        cases k with
        | zero =>
            simp only [List.getD_cons_zero, Nat.zero_mul, Nat.add_zero, List.drop_zero]
        | succ j =>
            simp only [List.getD_cons_succ]
            have hj : j < ((drainFrames payload hdr (buffer.drop payload) (sent + payload)).1).length := by
              simp only [List.length_cons] at hk
              omega
            rw [ih2 j hj, List.drop_drop]
            congr 2
            · ring
            · ring
      · simp only [List.length_cons]
        rw [ih3]
        ring
      · simp only [List.length_cons]
        rw [ih4, List.drop_drop]
        congr 1
        ring
  | case2 buffer sent h =>
      rw [drainFrames]
      simp only [dif_neg h]
      refine ⟨by simp, by simp, by simp, by simp, ?_⟩
      omega

/-- Claim C5.  Every datagram emitted by the framing loop of main holds
exactly packetSamples complex samples, hence packetSamples times 8
payload bytes: the first is the header for the running output-sample
counter at the moment of emission, the remaining payloadSamples equal to
packetSamples minus 1 are the next consecutive decimated samples; after
each emission the counter grows by exactly payloadSamples, so the header
of datagram k is for sample index sent plus k times payloadSamples; the
loop leaves the buffer suffix beyond the emitted samples and a final
counter advanced by the number of frames times payloadSamples. -/
theorem framer_emits_exact_frames {α : Type} (packetSamples : ℕ)
    (hpk : 2 ≤ packetSamples) (hdr : ℕ → α) (buffer : List α) (sent : ℕ) :
    (∀ f ∈ (drainFrames (packetSamples - 1) hdr buffer sent).1,
      f.length = packetSamples) ∧
    (∀ k < ((drainFrames (packetSamples - 1) hdr buffer sent).1).length,
      ((drainFrames (packetSamples - 1) hdr buffer sent).1).getD k []
        = hdr (sent + k * (packetSamples - 1))
            :: (buffer.drop (k * (packetSamples - 1))).take (packetSamples - 1)) ∧
    (drainFrames (packetSamples - 1) hdr buffer sent).2.2
      = sent + ((drainFrames (packetSamples - 1) hdr buffer sent).1).length
          * (packetSamples - 1) ∧
    ((drainFrames (packetSamples - 1) hdr buffer sent).2.1).length
      < packetSamples - 1 := by
  have h := drainFrames_spec (packetSamples - 1) hdr (by omega) buffer sent
  refine ⟨?_, h.2.1, h.2.2.1, h.2.2.2.2⟩
  intro f hf
  have := h.1 f hf
  omega

/-- Claim C5 witness: frame size 3, header producer the identity on
sample counters, a buffer of five samples starting from counter 0; the
loop emits two frames of three samples whose headers are for counters 0
and 2, and ends with the counter at 4. -/
theorem framer_emits_exact_frames_witness :
    2 ≤ 3 ∧
    (∀ f ∈ (drainFrames (3 - 1) (fun n => n) [10, 20, 30, 40, 50] 0).1, f.length = 3) ∧
    (drainFrames (3 - 1) (fun n => n) [10, 20, 30, 40, 50] 0).2.2
      = 0 + ((drainFrames (3 - 1) (fun n => n) [10, 20, 30, 40, 50] 0).1).length * (3 - 1) :=
  ⟨by decide,
    (framer_emits_exact_frames 3 (by decide) (fun n => n) [10, 20, 30, 40, 50] 0).1,
    (framer_emits_exact_frames 3 (by decide) (fun n => n) [10, 20, 30, 40, 50] 0).2.2.1⟩

/-! ## Claims C7 and C10: low-pass designer -/

theorem lor_one_eq (T : ℕ) : T ||| 1 = 2 * (T / 2) + 1 := by
  apply Nat.eq_of_testBit_eq
  intro i
  simp only [Nat.testBit_lor]
  cases i with
  | zero =>
      have h1 : (2 * (T / 2) + 1) % 2 = 1 := by omega
      simp [Nat.testBit_zero, h1]
  | succ j =>
      simp only [Nat.testBit_succ]
      have h2 : (2 * (T / 2) + 1) / 2 = T / 2 := by omega
      have h1 : (1 : ℕ) / 2 = 0 := by omega
      rw [h2, h1, Nat.zero_testBit, Bool.or_false]

theorem rawLowpass_length (T : ℕ) (fc : ℝ) :
    (rawLowpass T fc).length
      = (if (if T < 3 then 3 else T) % 2 = 0
          then (if T < 3 then 3 else T) + 1 else (if T < 3 then 3 else T)) := by
  rw [rawLowpass, List.length_map, List.length_range]

theorem designLowpass_length (T : ℕ) (fc : ℝ) :
    (designLowpass T fc).length = (rawLowpass T fc).length := by
  simp only [designLowpass]
  split
  · simp
  · rfl

theorem sum_map_div (l : List ℝ) (s : ℝ) : (l.map (fun c => c / s)).sum = l.sum / s := by
  induction l with
  | nil => simp
  | cons x xs ih => simp [ih, add_div]

/-- Claim C7.  For every requested tap count T and cutoff, designLowpass
returns a sequence of odd length L at least 3 with L = T when T is odd
and at least 3, and L = max 3 (T with its low bit forced) otherwise; and
either the returned coefficients sum to 1 within a thousandth (in the
real model the normalized sum is exactly 1), or the pre-normalization
sum was exactly zero and normalization was skipped, returning the raw
coefficients.  The length facts hold for every cutoff, in particular for
the valid range 0 < fc < one half named by the claim. -/
theorem designLowpass_spec (T : ℕ) (fc : ℝ) :
    Odd (designLowpass T fc).length ∧
    3 ≤ (designLowpass T fc).length ∧
    (designLowpass T fc).length = (if Odd T ∧ 3 ≤ T then T else max 3 (T ||| 1)) ∧
    (|(designLowpass T fc).sum - 1| ≤ 1 / 1000 ∨
      ((rawLowpass T fc).sum = 0 ∧ designLowpass T fc = rawLowpass T fc)) := by
  have hlen := designLowpass_length T fc
  rw [rawLowpass_length] at hlen
  refine ⟨?_, ?_, ?_, ?_⟩
  · rw [Nat.odd_iff, hlen]
    split <;> split <;> omega
  · rw [hlen]
    split <;> split <;> omega
  · rw [hlen, lor_one_eq]
    by_cases hodd : Odd T ∧ 3 ≤ T
    · rw [if_pos hodd]
      obtain ⟨h1, h2⟩ := hodd
      rw [Nat.odd_iff] at h1
      rw [if_neg (by omega : ¬ T < 3), if_neg (by omega : ¬ T % 2 = 0)]
    · rw [if_neg hodd]
      rw [Nat.odd_iff] at hodd
      by_cases hT : T < 3
      · rw [if_pos hT, if_neg (by norm_num : ¬ (3 : ℕ) % 2 = 0)]
        omega
      · rw [if_neg hT]
        by_cases hp : T % 2 = 0
        · rw [if_pos hp]
          omega
        · rw [if_neg hp]
          omega
  · by_cases h : (rawLowpass T fc).sum = 0
    · right
      refine ⟨h, ?_⟩
      simp [designLowpass, h]
    · left
      have : designLowpass T fc = (rawLowpass T fc).map (fun c => c / (rawLowpass T fc).sum) := by
        simp [designLowpass, h]
      rw [this, sum_map_div, div_self h]
      norm_num

/-- Claim C10.  For every requested tap count, including 0, and every
cutoff, designLowpass returns a nonempty list of length at least 3;
hence the taps-empty disjunct of the early-return guard of process is
unreachable for every constructed FirDecimator, and the guard condition
is equivalent to the factor being nonpositive. -/
theorem designLowpass_ne_nil (T : ℕ) (fc : ℝ) (F : ℤ) :
    3 ≤ (designLowpass T fc).length ∧
    designLowpass T fc ≠ [] ∧
    (mkFirDecimator F T fc).taps ≠ [] ∧
    (((mkFirDecimator F T fc).factor ≤ 0 ∨ (mkFirDecimator F T fc).taps = []) ↔ F ≤ 0) := by
  have h3 : 3 ≤ (designLowpass T fc).length := by
    rw [designLowpass_length, rawLowpass_length]
    split <;> split <;> omega
  have hne : designLowpass T fc ≠ [] := by
    intro hcon
    rw [hcon] at h3
    simp at h3
  refine ⟨h3, hne, hne, ?_⟩
  constructor
  · intro hor
    rcases hor with hF | htaps
    · exact hF
    · exact absurd htaps hne
  · intro hF
    exact Or.inl hF

/-! ## FIR decimator counting lemmas -/

theorem designLowpass_three_le (T : ℕ) (fc : ℝ) : 3 ≤ (designLowpass T fc).length := by
  rw [designLowpass_length, rawLowpass_length]
  split <;> split <;> omega

theorem designLowpass_nonempty (T : ℕ) (fc : ℝ) : designLowpass T fc ≠ [] := by
  intro hcon
  have h3 := designLowpass_three_le T fc
  rw [hcon] at h3
  simp at h3

theorem firStep_eq (d : FirDecimator) (x : ℂ) :
    firStep d x
      = (⟨d.factor, d.taps, d.state.set d.writeIndex x,
          (d.writeIndex + 1) % (d.state.set d.writeIndex x).length,
          (d.phase + 1) % d.factor⟩,
        if (d.phase + 1) % d.factor = 0
          then some (firAcc (d.state.set d.writeIndex x) d.taps
            ((d.writeIndex + 1) % (d.state.set d.writeIndex x).length) 0)
          else none) := by
  simp only [firStep]
  split <;> simp_all

theorem processGo_length (xs : List ℂ) :
    ∀ d : FirDecimator, 0 < d.factor → 0 ≤ d.phase → d.phase < d.factor →
      ((processGo d xs).2).length = (xs.length + d.phase.toNat) / d.factor.toNat := by
  induction xs with
  | nil =>
      intro d hF h0 h1
      simp only [processGo, List.length_nil]
      rw [Nat.div_eq_of_lt (by omega)]
  | cons x xs ih =>
      intro d hF h0 h1
      simp only [processGo, firStep_eq]
      have hd2 := ih ⟨d.factor, d.taps, d.state.set d.writeIndex x,
        (d.writeIndex + 1) % (d.state.set d.writeIndex x).length,
        (d.phase + 1) % d.factor⟩
        (by show (0 : ℤ) < d.factor; omega)
        (by show (0 : ℤ) ≤ (d.phase + 1) % d.factor
            exact Int.emod_nonneg _ (by omega))
        (by show (d.phase + 1) % d.factor < d.factor
            exact Int.emod_lt_of_pos _ hF)
      simp only at hd2
      by_cases hem : (d.phase + 1) % d.factor = 0
      · rw [if_pos hem]
        simp only [List.length_cons]
        have hdvd : d.factor ∣ d.phase + 1 := Int.dvd_of_emod_eq_zero hem
        have hle : d.factor ≤ d.phase + 1 := Int.le_of_dvd (by omega) hdvd
        have hpf : d.phase + 1 = d.factor := by omega
        have hFn : 0 < d.factor.toNat := by omega
        rw [hd2, hem]
        simp only [Int.toNat_zero, Nat.add_zero]
        rw [show xs.length + 1 + d.phase.toNat = xs.length + d.factor.toNat from by omega]
        rw [Nat.add_div_right _ hFn]
      · rw [if_neg hem]
        simp only [List.length_cons]
        have hne : d.phase + 1 ≠ d.factor := by
          intro hcon
          rw [hcon, Int.emod_self] at hem
          exact hem rfl
        have hmod : (d.phase + 1) % d.factor = d.phase + 1 :=
          Int.emod_eq_of_lt (by omega) (by omega)
        rw [hd2, hmod]
        rw [show xs.length + (d.phase + 1).toNat
          = xs.length + 1 + d.phase.toNat from by omega]

theorem process_length (d : FirDecimator) (xs : List ℂ)
    (hF : 0 < d.factor) (htaps : d.taps ≠ [])
    (h0 : 0 ≤ d.phase) (h1 : d.phase < d.factor) :
    ((process d xs).2).length = (xs.length + d.phase.toNat) / d.factor.toNat := by
  rw [process, if_neg]
  · exact processGo_length xs d hF h0 h1
  · push_neg
    exact ⟨by omega, htaps⟩

theorem nat_div_close (N p F : ℕ) (hFn : 0 < F) (hpF : p + 1 ≤ F) :
    |(((N + p) / F : ℕ) : ℚ) - (N : ℚ) / (F : ℚ)| ≤ 1 := by
  have hc1 : (N + p) / F * F ≤ N + p := Nat.div_mul_le_self _ _
  have hc2 : N + p < ((N + p) / F + 1) * F := by
    have hmod := Nat.div_add_mod (N + p) F
    have hlt := Nat.mod_lt (N + p) hFn
    calc N + p = F * ((N + p) / F) + (N + p) % F := hmod.symm
      _ < F * ((N + p) / F) + F := Nat.add_lt_add_left hlt _
      _ = ((N + p) / F + 1) * F := by ring
  have hF' : (0 : ℚ) < (F : ℚ) := by exact_mod_cast hFn
  have hc1' : (((N + p) / F : ℕ) : ℚ) * (F : ℚ) ≤ (N : ℚ) + (p : ℚ) := by exact_mod_cast hc1
  have hc2' : (N : ℚ) + (p : ℚ) < ((((N + p) / F : ℕ) : ℚ) + 1) * (F : ℚ) := by
    exact_mod_cast hc2
  have hp' : (p : ℚ) + 1 ≤ (F : ℚ) := by exact_mod_cast hpF
  have hp0 : (0 : ℚ) ≤ (p : ℚ) := by positivity
  rw [abs_le]
  constructor
  · have hub : (N : ℚ) / (F : ℚ) ≤ (((N + p) / F : ℕ) : ℚ) + 1 := by
      rw [div_le_iff₀ hF']
      linarith
    linarith
  · have hlb : (((N + p) / F : ℕ) : ℚ) - 1 ≤ (N : ℚ) / (F : ℚ) := by
      rw [le_div_iff₀ hF', sub_mul, one_mul]
      linarith
    linarith

theorem process_length_mk_concrete (F : ℤ) (T : ℕ) (fc : ℝ) (hF : 0 < F) (xs : List ℂ) :
    ((process (mkFirDecimator F T fc) xs).2).length = xs.length / F.toNat := by
  have h := process_length (mkFirDecimator F T fc) xs hF
    (designLowpass_nonempty T fc) (by exact le_refl 0) hF
  simpa using h

/-! ## Claim C1: fresh decimator state and first emission -/

/-- Claim C1 counterexample.  The claim asserts that for a freshly
constructed decimator an emission occurs while processing input index 0.
The code increments the phase before testing it, so with factor 4 the
first emission happens at input index 3: processing a single sample
through a fresh FirDecimator of factor 4 and requested tap count 17
(cutoff one tenth, as in the repository test) emits nothing. -/
theorem firDecimator_no_emission_at_index_zero :
    (process (mkFirDecimator 4 17 (1 / 10)) [1]).2 = [] := by
  have h := process_length_mk_concrete 4 17 (1 / 10) (by norm_num) [1]
  simp only [List.length_singleton] at h
  norm_num at h
  exact List.length_eq_zero.mp h

/-- Claim C1 as amended: for a freshly constructed FirDecimator with
factor F positive, the internal state buffer is all zeros and the phase
counter is 0; since the phase is incremented before the emission test,
the first emission occurs while processing input index F minus 1, that
is, process emits nothing if and only if the input is shorter than F
samples (so for factor 1 the first emission is at input index 0, while
for larger factors it is later). -/
theorem firDecimator_fresh_state (F : ℤ) (T : ℕ) (fc : ℝ) (hF : 0 < F) :
    (mkFirDecimator F T fc).state
        = List.replicate ((mkFirDecimator F T fc).taps).length 0 ∧
    (mkFirDecimator F T fc).phase = 0 ∧
    ∀ xs : List ℂ, ((process (mkFirDecimator F T fc) xs).2 = [] ↔ xs.length < F.toNat) := by
  refine ⟨rfl, rfl, ?_⟩
  intro xs
  rw [← List.length_eq_zero, process_length_mk_concrete F T fc hF xs]
  exact Nat.div_eq_zero_iff (by omega)

/-- Claim C1 witness: the amended theorem at factor 4, requested taps 17,
cutoff one tenth, with a four-sample input, where the first emission
happens (at input index 3). -/
theorem firDecimator_fresh_state_witness :
    (0 : ℤ) < 4 ∧
    ((process (mkFirDecimator 4 17 (1 / 10)) [1, 1, 1, 1]).2 = []
      ↔ ([1, 1, 1, 1] : List ℂ).length < (4 : ℤ).toNat) :=
  ⟨by norm_num, (firDecimator_fresh_state 4 17 (1 / 10) (by norm_num)).2.2 [1, 1, 1, 1]⟩

/-! ## Claim C3: output count of process -/

/-- Claim C3 counterexample.  The claim gives the output count as the
ceiling of (N plus priorPhase) over F.  For a fresh decimator of factor
4 and requested taps 17 on a single input sample the code emits 0
samples while the ceiling formula gives (1 + 0 + 4 - 1) / 4 = 1. -/
theorem firDecimator_count_not_ceil :
    ((process (mkFirDecimator 4 17 (1 / 10)) [1]).2).length = 0 ∧
    (1 + 0 + 4 - 1) / 4 = 1 := by
  constructor
  · have h := process_length_mk_concrete 4 17 (1 / 10) (by norm_num) [1]
    simpa using h
  · norm_num

/-- Claim C3 as amended: for every FirDecimator with positive factor F,
nonempty taps and prior phase counter p in the interval from 0 to F,
process on an input of length N returns exactly floor of (N plus p) over
F output samples (the floor, not the ceiling), which is within 1 of N
over F; in particular, processing 20 constant samples through a freshly
constructed FirDecimator with factor 4 and requested tap count 17 yields
exactly 5 output samples. -/
theorem firDecimator_output_count (d : FirDecimator) (xs : List ℂ)
    (hF : 0 < d.factor) (htaps : d.taps ≠ [])
    (h0 : 0 ≤ d.phase) (h1 : d.phase < d.factor) :
    ((process d xs).2).length = (xs.length + d.phase.toNat) / d.factor.toNat ∧
    |(((process d xs).2).length : ℚ) - (xs.length : ℚ) / (d.factor.toNat : ℚ)| ≤ 1 ∧
    ((process (mkFirDecimator 4 17 (1 / 10)) (List.replicate 20 1)).2).length = 5 := by
  have hlen := process_length d xs hF htaps h0 h1
  refine ⟨hlen, ?_, ?_⟩
  · rw [hlen]
    exact nat_div_close xs.length d.phase.toNat d.factor.toNat (by omega) (by omega)
  · have h := process_length_mk_concrete 4 17 (1 / 10) (by norm_num) (List.replicate 20 1)
    simpa using h

/-- Claim C3 witness: the amended theorem at the fresh decimator of
factor 4 and requested taps 17 on the 20-sample constant input of the
repository test, giving the first conjunct, the exact count. -/
theorem firDecimator_output_count_witness :
    0 < (mkFirDecimator 4 17 (1 / 10)).factor ∧
    ((process (mkFirDecimator 4 17 (1 / 10)) (List.replicate 20 1)).2).length
      = ((List.replicate (20 : ℕ) (1 : ℂ)).length + (mkFirDecimator 4 17 (1 / 10)).phase.toNat)
          / (mkFirDecimator 4 17 (1 / 10)).factor.toNat :=
  ⟨by show (0 : ℤ) < 4; norm_num,
    (firDecimator_output_count (mkFirDecimator 4 17 (1 / 10)) (List.replicate 20 1)
      (by show (0 : ℤ) < 4; norm_num) (designLowpass_nonempty 17 (1 / 10))
      (by show (0 : ℤ) ≤ 0; norm_num) (by show (0 : ℤ) < 4; norm_num)).1⟩

/-! ## Claim C8: misconfiguration behaviour of process -/

/-- Claim C8 counterexample.  The claim asserts that a requested tap
count of 0 makes process return an empty output.  The designer clamps
the tap count to 3, so a FirDecimator of factor 1 and requested tap
count 0 emits one sample per input sample: on one input sample the
output is not empty. -/
theorem firDecimator_zero_taps_output_nonempty :
    (process (mkFirDecimator 1 0 (1 / 4)) [1]).2 ≠ [] := by
  have h := process_length_mk_concrete 1 0 (1 / 4) (by norm_num) [1]
  intro hcon
  rw [hcon] at h
  simp at h

/-- Claim C8 as amended: if a FirDecimator is configured with factor F
nonpositive, process returns an empty output vector for every input (and
the model is total, so it never aborts); a requested tap count of 0,
however, is clamped by the designer to a 3-tap filter, so with a
positive factor process produces its normal decimated output, for
example one output sample for one input sample at factor 1. -/
theorem firDecimator_guard_empty (F : ℤ) (T : ℕ) (fc : ℝ) (xs : List ℂ)
    (hF : F ≤ 0) :
    (process (mkFirDecimator F T fc) xs).2 = [] ∧
    ((process (mkFirDecimator 1 0 (1 / 4)) [1]).2).length = 1 := by
  constructor
  · rw [process, if_pos
      (Or.inl hF : (mkFirDecimator F T fc).factor ≤ 0 ∨ (mkFirDecimator F T fc).taps = [])]
  · have h := process_length_mk_concrete 1 0 (1 / 4) (by norm_num) [1]
    simpa using h

/-- Claim C8 witness: the amended theorem at factor -2 on a two-sample
input. -/
theorem firDecimator_guard_empty_witness :
    (-2 : ℤ) ≤ 0 ∧ (process (mkFirDecimator (-2) 5 (1 / 4)) [1, 1]).2 = [] :=
  ⟨by norm_num, (firDecimator_guard_empty (-2) 5 (1 / 4) [1, 1] (by norm_num)).1⟩

/-! ## Frequency shifter lemmas -/

theorem cis_phase (θ : ℝ) (m : ℤ) :
    (⟨Real.cos (θ + 2 * Real.pi * m), Real.sin (θ + 2 * Real.pi * m)⟩ : ℂ)
      = Complex.exp ((θ : ℂ) * Complex.I) := by
  have hc : Real.cos (θ + 2 * Real.pi * m) = Real.cos θ := by
    have h := Real.cos_add_int_mul_two_pi θ m
    rw [← h]
    ring_nf
  have hs : Real.sin (θ + 2 * Real.pi * m) = Real.sin θ := by
    have h := Real.sin_add_int_mul_two_pi θ m
    rw [← h]
    ring_nf
  rw [hc, hs, Complex.mk_eq_add_mul_I, Complex.exp_mul_I]
  rw [Complex.ofReal_cos, Complex.ofReal_sin]

theorem foldPhase_shift (p : ℝ) : ∃ j : ℤ, foldPhase p = p + 2 * Real.pi * j := by
  rw [foldPhase]
  split_ifs
  · exact ⟨-1, by push_cast; ring⟩
  · exact ⟨1, by push_cast; ring⟩
  · exact ⟨0, by push_cast; ring⟩

theorem mapIdx_id_eq {β : Type} (xs : List β) : xs.mapIdx (fun _ x => x) = xs := by
  induction xs with
  | nil => rfl
  | cons x l ih =>
      rw [List.mapIdx_cons]
      simp [ih]

theorem mapIdx_map_range {β : Type} (N : ℕ) (g : ℕ → β) (f : ℕ → β → β) :
    ((List.range N).map g).mapIdx f = (List.range N).map (fun n => f n (g n)) := by
  induction N with
  | zero => rfl
  | succ n ih =>
      rw [List.range_succ, List.map_append, List.mapIdx_append, ih, List.map_append]
      simp

theorem mixGo_spec (Δ : ℝ) (xs : List ℂ) :
    ∀ (fs : FrequencyShifter) (k : ℕ), fs.step = Δ →
      (∃ m : ℤ, fs.phase = k * Δ + 2 * Real.pi * m) →
      (mixGo fs xs).1.shiftHz = fs.shiftHz ∧
      (mixGo fs xs).1.step = Δ ∧
      (∃ m : ℤ, (mixGo fs xs).1.phase = ((k + xs.length : ℕ) : ℝ) * Δ + 2 * Real.pi * m) ∧
      (mixGo fs xs).2 = xs.mapIdx (fun j x =>
        x * Complex.exp ((((k + j : ℕ) : ℝ) * Δ : ℂ) * Complex.I)) := by
  induction xs with
  | nil =>
      intro fs k hstep hphase
      exact ⟨rfl, hstep, by simpa using hphase, rfl⟩
  | cons x xs ih =>
      intro fs k hstep hphase
      obtain ⟨m, hm⟩ := hphase
      obtain ⟨j, hj⟩ := foldPhase_shift (fs.phase + fs.step)
      have hphase2 : foldPhase (fs.phase + fs.step)
          = ((k + 1 : ℕ) : ℝ) * Δ + 2 * Real.pi * ((m + j : ℤ) : ℝ) := by
        rw [hj, hm, hstep]
        push_cast
        ring
      have hrec := ih ⟨fs.shiftHz, fs.step, foldPhase (fs.phase + fs.step)⟩ (k + 1)
        (by show fs.step = Δ; exact hstep)
        ⟨m + j, by show foldPhase (fs.phase + fs.step) = _; rw [hphase2]⟩
      simp only [mixGo, mixStep]
      refine ⟨hrec.1, hrec.2.1, ?_, ?_⟩
      · obtain ⟨m2, hm2⟩ := hrec.2.2.1
        refine ⟨m2, ?_⟩
        simp only [List.length_cons]
        rw [show k + (xs.length + 1) = k + 1 + xs.length from by omega]
        exact hm2
      · rw [List.mapIdx_cons]
        congr 1
        · rw [hm, cis_phase ((k : ℝ) * Δ) m]
          simp [Complex.ofReal_mul]
        · rw [hrec.2.2.2]
          exact congrArg (fun f => List.mapIdx f xs)
            (funext fun i => funext fun y => by
              rw [show k + 1 + i = k + (i + 1) from by omega])

theorem mix_spec (Δ : ℝ) (xs : List ℂ) (fs : FrequencyShifter) (k : ℕ)
    (hstep : fs.step = Δ) (hzero : fs.shiftHz = 0 → Δ = 0)
    (hphase : ∃ m : ℤ, fs.phase = k * Δ + 2 * Real.pi * m) :
    (mix fs xs).1.shiftHz = fs.shiftHz ∧
    (mix fs xs).1.step = Δ ∧
    (∃ m : ℤ, (mix fs xs).1.phase = ((k + xs.length : ℕ) : ℝ) * Δ + 2 * Real.pi * m) ∧
    (mix fs xs).2 = xs.mapIdx (fun j x =>
      x * Complex.exp ((((k + j : ℕ) : ℝ) * Δ : ℂ) * Complex.I)) := by
  rw [mix]
  by_cases hc : fs.shiftHz = 0 ∨ xs = []
  · rw [if_pos hc]
    rcases hc with h0 | hnil
    · have hΔ : Δ = 0 := hzero h0
      obtain ⟨m, hm⟩ := hphase
      refine ⟨rfl, hstep, ⟨m, by rw [hm, hΔ]; push_cast; ring⟩, ?_⟩
      subst hΔ
      simp only [mul_zero, Complex.ofReal_zero, zero_mul, Complex.exp_zero, mul_one]
      exact (mapIdx_id_eq xs).symm
    · subst hnil
      exact ⟨rfl, hstep, by simpa using hphase, rfl⟩
  · rw [if_neg hc]
    exact mixGo_spec Δ xs fs k hstep hphase

theorem mixCalls_spec (Δ : ℝ) (cs : List (List ℂ)) :
    ∀ (fs : FrequencyShifter) (k : ℕ), fs.step = Δ → (fs.shiftHz = 0 → Δ = 0) →
      (∃ m : ℤ, fs.phase = k * Δ + 2 * Real.pi * m) →
      (mixCalls fs cs).1.shiftHz = fs.shiftHz ∧
      (mixCalls fs cs).1.step = Δ ∧
      ((mixCalls fs cs).2).flatten = (cs.flatten).mapIdx (fun n x =>
        x * Complex.exp ((((k + n : ℕ) : ℝ) * Δ : ℂ) * Complex.I)) := by
  induction cs with
  | nil =>
      intro fs k hstep hzero hphase
      exact ⟨rfl, hstep, rfl⟩
  | cons c cs ih =>
      intro fs k hstep hzero hphase
      have hm := mix_spec Δ c fs k hstep hzero hphase
      have hrec := ih (mix fs c).1 (k + c.length) hm.2.1
        (by intro h; exact hzero (hm.1.symm ▸ h)) hm.2.2.1
      simp only [mixCalls]
      refine ⟨hrec.1.trans hm.1, hrec.2.1, ?_⟩
      show ((mix fs c).2 :: (mixCalls (mix fs c).1 cs).2).flatten = _
      rw [List.flatten_cons, hrec.2.2, hm.2.2.2, List.flatten_cons, List.mapIdx_append]
      congr 1
      exact congrArg (fun f => List.mapIdx f cs.flatten)
        (funext fun i => funext fun y => by
          rw [show k + c.length + i = k + (i + c.length) from by omega])

/-! ## Claim C2: mixer sign convention and tone shifting -/

/-- Claim C2.  For every positive sampleRate and every shiftHz, mix
multiplies the n-th sample processed since construction, across any
sequence of calls, by the complex exponential of plus i times n times
the phase step 2 pi shiftHz over sampleRate (phase starting at 0 and
persistent across calls); consequently a complex tone of frequency f0
is moved to frequency f0 plus shiftHz, upward for positive shiftHz and
downward for negative shiftHz. -/
theorem frequencyShifter_mix_spec (rate shift : ℝ) (hrate : 0 < rate) :
    (∀ cs : List (List ℂ),
      ((mixCalls (mkFrequencyShifter rate shift) cs).2).flatten
        = (cs.flatten).mapIdx (fun n x =>
            x * Complex.exp ((((n : ℕ) : ℝ) : ℂ)
              * ((2 * Real.pi * shift / rate : ℝ) : ℂ) * Complex.I))) ∧
    (∀ (f0 : ℝ) (N : ℕ),
      (mix (mkFrequencyShifter rate shift)
          ((List.range N).map (fun (n : ℕ) =>
            Complex.exp ((2 * Real.pi * f0 * (n : ℝ) / rate : ℂ) * Complex.I)))).2
        = (List.range N).map (fun (n : ℕ) =>
            Complex.exp ((2 * Real.pi * (f0 + shift) * (n : ℝ) / rate : ℂ) * Complex.I))) := by
  have hr : (if rate ≤ 0 then (1 : ℝ) else rate) = rate := if_neg (not_le.mpr hrate)
  have hstep : (mkFrequencyShifter rate shift).step = 2 * Real.pi * shift / rate := by
    show (if shift = 0 then (0 : ℝ)
      else 2 * Real.pi * shift / (if rate ≤ 0 then 1 else rate)) = _
    rw [hr]
    by_cases hs : shift = 0
    · rw [if_pos hs, hs]
      simp
    · rw [if_neg hs]
  have hzero : (mkFrequencyShifter rate shift).shiftHz = 0 → 2 * Real.pi * shift / rate = 0 := by
    intro h
    have : shift = 0 := h
    simp [this]
  have hphase : ∃ m : ℤ, (mkFrequencyShifter rate shift).phase
      = ((0 : ℕ) : ℝ) * (2 * Real.pi * shift / rate) + 2 * Real.pi * m :=
    ⟨0, by show (0 : ℝ) = _; push_cast; ring⟩
  constructor
  · intro cs
    have h := (mixCalls_spec (2 * Real.pi * shift / rate) cs
      (mkFrequencyShifter rate shift) 0 hstep hzero hphase).2.2
    rw [h]
    congr 1
    funext n x
    rw [show 0 + n = n from by omega]
  · intro f0 N
    have h := (mix_spec (2 * Real.pi * shift / rate)
      ((List.range N).map (fun (n : ℕ) =>
        Complex.exp ((2 * Real.pi * f0 * (n : ℝ) / rate : ℂ) * Complex.I)))
      (mkFrequencyShifter rate shift) 0 hstep hzero hphase).2.2.2
    rw [h, mapIdx_map_range]
    congr 1
    funext n
    rw [show 0 + n = n from by omega]
    rw [← Complex.exp_add]
    congr 1
    push_cast
    ring

/-- Claim C2 witness: the general theorem at sample rate 2 Hz and shift
3 Hz on a single one-call, one-sample stream. -/
theorem frequencyShifter_mix_spec_witness :
    (0 : ℝ) < 2 ∧
    ((mixCalls (mkFrequencyShifter 2 3) [[1]]).2).flatten
      = (([[1]] : List (List ℂ)).flatten).mapIdx (fun n x =>
          x * Complex.exp ((((n : ℕ) : ℝ) : ℂ)
            * ((2 * Real.pi * 3 / 2 : ℝ) : ℂ) * Complex.I)) :=
  ⟨by norm_num, (frequencyShifter_mix_spec 2 3 (by norm_num)).1 [[1]]⟩

/-! ## Claim C6: zero shift is a no-op -/

/-- Claim C6.  A FrequencyShifter constructed with shiftHz 0 leaves every
sample of every call unchanged and leaves its whole state, in particular
the phase accumulator, unchanged, across any sequence of calls: mixCalls
returns the construction state and the input lists themselves. -/
theorem frequencyShifter_zero_shift_noop (rate : ℝ) (cs : List (List ℂ)) :
    mixCalls (mkFrequencyShifter rate 0) cs = (mkFrequencyShifter rate 0, cs) := by
  induction cs with
  | nil => rfl
  | cons c cs ih =>
      have hm : mix (mkFrequencyShifter rate 0) c = (mkFrequencyShifter rate 0, c) := by
        have h0 : (mkFrequencyShifter rate 0).shiftHz = 0 := rfl
        rw [mix, if_pos (Or.inl h0 : (mkFrequencyShifter rate 0).shiftHz = 0 ∨ c = [])]
      simp only [mixCalls, hm, ih]

end AirspyHFDecimate
